import Mathlib

/-!
Verification of the Quad grid/block matching engine.

The definitions below are a shallow embedding of the repository's
JavaScript sources:

* `src/js/app/block.js` — the `Block` entity: constructor color fallback,
  `drop`, `slide`, `clear` (square-formation gate + recursive erase) and
  `destroy`.
* `src/js/app/score.js` — the `Score` state machine: `update`, `calcLevel`
  and `newLevel`.

The grid store (`app/grid`) and the configuration (`app/config`) are not
part of the given sources; where their behaviour is load-bearing it is
modelled from the specification and marked as such in a doc comment.

Grids are modelled as association lists from coordinates to block values;
a lookup of an unoccupied (or out-of-range) coordinate yields `none`,
which is the specified "out-of-range is non-matching" behaviour of the
grid store.  Block identity (JavaScript reference identity, used by the
`destroyed.indexOf` check in `clear`) is modelled by the block's value
`(coord, color)`; under the placement invariant each placed object is
determined by its slot, so value equality coincides with reference
equality on the states the claims quantify over.
-/

/-- A logical grid coordinate, as the `{x: , y: }` objects of `block.js`.
`y` grows downwards ("below" in the source comments is `y+1`). -/
structure Coord where
  x : Int
  y : Int
deriving DecidableEq, Repr

/-- One cell occupant: `color` and the block's own recorded `coord`
(the `this.color` / `this.coord` fields of a placed `Block`). -/
structure Block where
  coord : Coord
  color : Nat
deriving DecidableEq, Repr

/-- The occupancy store `grid.contents`: slot (coordinate) to occupant. -/
abbrev Grid := List (Coord × Block)

/-- Slot lookup: `grid.contents[c.y][c.x]`, `none` when empty.

Modelled from the spec: `app/grid.js` is not among the given sources; per
the spec the store "must tolerate a neighbor at a boundary (row/column ±1
out of range) by treating out-of-range as non-matching rather than
failing", so a lookup outside the populated slots yields `none`. -/
def Grid.get : Grid → Coord → Option Block
  | [], _ => none
  | (c', b) :: rest, c => if c' = c then some b else Grid.get rest c

/-- Empty a slot: `grid.contents[coord.y][coord.x] = undefined`. -/
def Grid.eraseSlot : Grid → Coord → Grid
  | [], _ => []
  | (c', b) :: rest, c =>
    if c' = c then Grid.eraseSlot rest c else (c', b) :: Grid.eraseSlot rest c

/-- The cell below (`[coord.y+1][coord.x]` in `block.js`). -/
def Coord.below (c : Coord) : Coord := { c with y := c.y + 1 }

/-- The cell above (`[coord.y-1][coord.x]`). -/
def Coord.above (c : Coord) : Coord := { c with y := c.y - 1 }

/-- The cell to the right (`[coord.y][coord.x+1]`). -/
def Coord.right (c : Coord) : Coord := { c with x := c.x + 1 }

/-- The cell to the left (`[coord.y][coord.x-1]`). -/
def Coord.left (c : Coord) : Coord := { c with x := c.x - 1 }

/-- `matchingColor` from `Block.prototype.clear`:
`block && (block.color == this.color)`. -/
def matchingColor (col : Nat) : Option Block → Bool
  | some b => b.color = col
  | none => false

/-- `checkForClear` from `Block.prototype.clear`: is there a square of
blocks of color `col` with corner `c`, extending to `c.below`, `c.right`
and `c.below.right`? -/
def checkForClear (g : Grid) (col : Nat) (c : Coord) : Bool :=
  matchingColor col (g.get c) &&
  matchingColor col (g.get c.below) &&
  matchingColor col (g.get c.right) &&
  matchingColor col (g.get c.below.right)

/-- The `doClear` gate of `Block.prototype.clear`: one of the four 2×2
candidate squares having the block's coordinate as a corner fully
matches.  The candidates' corners are `(x,y)`, `(x-1,y)`, `(x,y-1)` and
`(x-1,y-1)`, in source order. -/
def doClear (g : Grid) (b : Block) : Bool :=
  checkForClear g b.color b.coord ||
  checkForClear g b.color b.coord.left ||
  checkForClear g b.color b.coord.above ||
  checkForClear g b.color b.coord.left.above

/-- `eraseBlocks` from `Block.prototype.clear`.  State is the current
grid plus the `destroyed` list; a visit first checks the `destroyed`
membership (`indexOf`), then destroys the block (empties the slot at the
block's own coordinate, pushes it onto `destroyed`) and recurses into the
four neighbours — below, above, right, left, in source order — whenever
the neighbour's occupant at that moment matches the colour.

The JavaScript recursion terminates because every visit destroys a block
that the current grid still holds; the embedding makes this explicit with
a fuel argument, and `clear` below supplies fuel that is proved never to
run out on placed blocks. -/
def eraseBlocks (col : Nat) : Nat → Grid → List Block → Block → Grid × List Block
  | 0, g, d, _ => (g, d)
  | fuel + 1, g, d, b =>
    if b ∈ d then (g, d)
    else
      let p0 : Grid × List Block := (Grid.eraseSlot g b.coord, d ++ [b])
      let p1 : Grid × List Block :=
        match Grid.get p0.1 b.coord.below with
        | some nb => if nb.color = col then eraseBlocks col fuel p0.1 p0.2 nb else p0
        | none => p0
      let p2 : Grid × List Block :=
        match Grid.get p1.1 b.coord.above with
        | some nb => if nb.color = col then eraseBlocks col fuel p1.1 p1.2 nb else p1
        | none => p1
      let p3 : Grid × List Block :=
        match Grid.get p2.1 b.coord.right with
        | some nb => if nb.color = col then eraseBlocks col fuel p2.1 p2.2 nb else p2
        | none => p2
      match Grid.get p3.1 b.coord.left with
      | some nb => if nb.color = col then eraseBlocks col fuel p3.1 p3.2 nb else p3
      | none => p3

/-- One neighbour step of `eraseBlocks` (the body of each of the four
`if (matchingColor(...)) eraseBlocks(...)` statements), named so the
recursion can be reasoned about uniformly. -/
def eraseNeighbor (col : Nat) (fuel : Nat) (p : Grid × List Block) (n : Coord) :
    Grid × List Block :=
  match Grid.get p.1 n with
  | some nb => if nb.color = col then eraseBlocks col fuel p.1 p.2 nb else p
  | none => p

/-- `Block.prototype.clear`: if no candidate square matches, do nothing;
otherwise erase the connected same-coloured region starting from the
block, with an initially empty `destroyed` list.  Returns the resulting
grid together with the `destroyed` list. -/
def clear (g : Grid) (b : Block) : Grid × List Block :=
  if doClear g b then eraseBlocks b.color (g.length + 1) g [] b else (g, [])

/-- Bidirectional occupancy consistency on the value-level grid: every
slot's occupant records the slot's key as its own coordinate. -/
def Consistent (g : Grid) : Prop := ∀ p ∈ g, (p.2).coord = p.1

instance (g : Grid) : Decidable (Consistent g) := by
  unfold Consistent
  infer_instance

/-- The grid extent: coordinates of the `n × n` board. -/
def inBounds (n : Nat) (c : Coord) : Prop :=
  0 ≤ c.x ∧ c.x < (n : Int) ∧ 0 ≤ c.y ∧ c.y < (n : Int)

instance (n : Nat) (c : Coord) : Decidable (inBounds n c) := by
  unfold inBounds
  infer_instance

/-- The four 4-directional neighbours of a cell, no diagonals
(source order: below, above, right, left). -/
def adjStep (c : Coord) : List Coord := [c.below, c.above, c.right, c.left]

/-- One step of same-colour adjacency in grid `g`: move to a
4-directionally adjacent cell occupied by a block of colour `col`. -/
def RegionStep (g : Grid) (col : Nat) (a c : Coord) : Prop :=
  c ∈ adjStep a ∧ matchingColor col (g.get c) = true

/-- The connected same-colour region: cells reachable from `r` through
4-directionally adjacent cells occupied by colour `col`. -/
def InRegion (g : Grid) (col : Nat) (r c : Coord) : Prop :=
  Relation.ReflTransGen (RegionStep g col) r c

/-- Modelled from the spec: `app/config.js` is not among the given
sources; `config.color.unbreakable` is the reserved sentinel colour,
distinct from every normal palette colour.  The numeric value is a model
constant — no theorem depends on it, only on (in)equality with block
colours. -/
def unbreakableColor : Nat := 0x808080

/-- The constructor colour fallback of `Block` (`block.js` line 27):
`this.color = color || config.color.unbreakable`.  The argument is
`none` when omitted; the only falsy `Nat` colour value is `0`. -/
def blockColor (unbreakable : Nat) : Option Nat → Nat
  | none => unbreakable
  | some v => if v = 0 then unbreakable else v

/-- `String.prototype.toLowerCase` as used by `Block.prototype.slide`,
modelled character-wise; on the ASCII direction strings involved this
coincides with the JavaScript built-in. -/
def strToLower (s : String) : String := ⟨s.data.map Char.toLower⟩

/-- `Block.prototype.slide`: switch on `direction.toLowerCase()`,
mutating the coordinate one cell on a single axis, or throwing
`"Invalid argument to Block.slide: " + direction` for anything else
(cases in source order: top, bottom, left, right). -/
def slide (direction : String) (c : Coord) : Except String Coord :=
  let d := strToLower direction
  if d = "top" then .ok ⟨c.x, c.y - 1⟩
  else if d = "bottom" then .ok ⟨c.x, c.y + 1⟩
  else if d = "left" then .ok ⟨c.x - 1, c.y⟩
  else if d = "right" then .ok ⟨c.x + 1, c.y⟩
  else .error ("Invalid argument to Block.slide: " ++ direction)

/-- A sample palette colour for concrete instances. -/
def redColor : Nat := 0xFF0000

/-- A 2×2 square of colour `col` with corner `(0,0)`, each block
consistently recording its slot. -/
def sq22 (col : Nat) : Grid :=
  [(⟨0, 0⟩, ⟨⟨0, 0⟩, col⟩), (⟨1, 0⟩, ⟨⟨1, 0⟩, col⟩),
   (⟨0, 1⟩, ⟨⟨0, 1⟩, col⟩), (⟨1, 1⟩, ⟨⟨1, 1⟩, col⟩)]

/-- The block at `(0,0)` of `sq22 col`. -/
def sqBlock (col : Nat) : Block := ⟨⟨0, 0⟩, col⟩

/-- A red 2×2 square with an unbreakable block grid-adjacent to it at
`(2,1)` (next to the member at `(1,1)`). -/
def mixedGrid : Grid := (⟨2, 1⟩, ⟨⟨2, 1⟩, unbreakableColor⟩) :: sq22 redColor

/-!
### The Score/Level state machine (`src/js/app/score.js`)

Side effects of a level transition are recorded as an event trace.
The configuration tables consumed by `score.js` live in `app/config.js`,
which is not among the given sources; they are modelled from the spec as
a record of natural-number tables ("ascending ordered sequence of
cumulative-score thresholds", "points exponent per level", "palette per
level").  With natural-number exponents `Math.floor(Math.pow(n, e))` is
exactly `n ^ e`.
-/

/-- One observable side effect of `Score.prototype.newLevel`, one
constructor per call in the source body. -/
inductive Event where
  | setLevel : Nat → Event
  | playMusic : String → Event
  | newBackgroundColor : Nat → Event
  | markCenterBreakable : Event
  | clearAll : Event
  | resetMiddle : Event
  | redrawCenter : Event
  | centerToCenter : Event
  | markCenterUnbreakable : Event
deriving DecidableEq, Repr

/-- Modelled from the spec: the configuration tables of `app/config.js`
(`config.checkpoints`, `config.points`, `config.color.available`). -/
structure Config where
  checkpoints : List Nat
  points : List Nat
  available : List (List Nat)

/-- The event trace of `Score.prototype.newLevel`, in source order:
`generator.setLevel`, `music.play("background"+(level+1))`,
`background.newColor(config.color.available[level][0])`,
`centerQuad.breakable()`, `grid.clearAll()`, `grid.resetMiddle()`,
`centerQuad.redraw().toCenter().unbreakable()`. -/
def newLevelEvents (cfg : Config) (level : Nat) : List Event :=
  [Event.setLevel level,
   Event.playMusic ("background" ++ toString (level + 1)),
   Event.newBackgroundColor ((cfg.available.getD level []).getD 0 0),
   Event.markCenterBreakable,
   Event.clearAll,
   Event.resetMiddle,
   Event.redrawCenter,
   Event.centerToCenter,
   Event.markCenterUnbreakable]

/-- The downward scan of `Score.prototype.calcLevel`
(`for (i = checkpoints.length - 1; i >= 0; i--)`): the 1-based index of
the highest checkpoint satisfied by `current`, or `none` when no
checkpoint is satisfied. -/
def scanCheckpoints : List Nat → Nat → Option Nat
  | [], _ => none
  | cp :: rest, current =>
    match scanCheckpoints rest current with
    | some j => some (j + 1)
    | none => if cp ≤ current then some 1 else none

/-- `Score.prototype.calcLevel`: the scan result, falling back to the
unchanged current level when no checkpoint is satisfied. -/
def calcLevel (cfg : Config) (current level : Nat) : Nat :=
  (scanCheckpoints cfg.checkpoints current).getD level

/-- The mutable fields of the `Score` singleton (plus the scoreboard's
displayed text, `this.board.text`). -/
structure ScoreState where
  current : Nat
  level : Nat
  boardText : String
deriving DecidableEq, Repr

/-- The initial score state (`Score` constructor / `init`). -/
def initScore : ScoreState :=
  { current := 0, level := 0, boardText := "Level: 1\nScore: 0" }

/-- `Score.prototype.update`, returning the new state together with the
level-transition events it emitted (empty when no transition happened).
Source order: compute `points = pow(clearCount, config.points[level])`,
remember `levelDisplay = level + 1`, add `floor(points)` to `current`,
refresh the board text, then recompute the level and transition only when
it strictly increased. -/
def update (cfg : Config) (s : ScoreState) (clearCount : Nat) :
    ScoreState × List Event :=
  let points := clearCount ^ cfg.points.getD s.level 0
  let levelDisplay := s.level + 1
  let current := s.current + points
  let text := "Level: " ++ toString levelDisplay ++ "\nScore: " ++ toString current
  let newLvl := calcLevel cfg current s.level
  if s.level < newLvl then
    ({ current := current, level := newLvl, boardText := text },
     newLevelEvents cfg newLvl)
  else
    ({ current := current, level := s.level, boardText := text }, [])

/-- Iterate `update` over a history of clear counts, discarding events. -/
def runUpdates (cfg : Config) (s : ScoreState) : List Nat → ScoreState
  | [] => s
  | n :: ns => runUpdates cfg (update cfg s n).1 ns

/-- The concrete configuration of the C6 scenario: checkpoints
`[100, 300, 600]`, points exponent `1` at every level. -/
def cfgScenario : Config :=
  { checkpoints := [100, 300, 600],
    points := [1, 1, 1, 1],
    available := [[10], [20], [30], [40]] }

/-!
### Reference-semantics store model for occupancy consistency (C5)

`drop`, `slide` and `destroy` mutate a shared object graph: the grid
store holds references to `Block` objects which record their own
coordinate.  To express the claim's "slot's Block reference has its own
coordinate equal to the slot's key" faithfully under mutation, blocks
live in a heap addressed by identity, and slots hold identities.

The grid-store halves of these operations (`grid.contents` assignment in
`drop`/`destroy` is in `block.js`; the grid-level `slideUp/Down/...`
which relocates slots is in the missing `app/grid.js`) — the slide is
modelled from the spec: "shifts every occupied Block one cell toward the
named edge", with the set of blocks that actually move left abstract as
a policy predicate, since the cascade policy lives in the missing file.
-/

/-- The per-object state of a block: its colour and its own recorded
coordinate (`this.coord`). -/
structure BlockData where
  color : Nat
  coord : Coord
deriving DecidableEq, Repr

/-- Grid slots: coordinate to block identity. -/
abbrev Slots := List (Coord × Nat)

/-- The block heap: identity to block state. -/
abbrev Heap := List (Nat × BlockData)

/-- The shared state: grid store plus block objects. -/
structure GState where
  contents : Slots
  blocks : Heap
deriving DecidableEq, Repr

/-- Dereference a block identity. -/
def heapGet : Heap → Nat → Option BlockData
  | [], _ => none
  | (i, bd) :: rest, j => if i = j then some bd else heapGet rest j

/-- Remove a block identity from the heap. -/
def heapErase : Heap → Nat → Heap
  | [], _ => []
  | (i, bd) :: rest, j =>
    if i = j then heapErase rest j else (i, bd) :: heapErase rest j

/-- Overwrite (or create) a block object. -/
def heapSet (h : Heap) (i : Nat) (bd : BlockData) : Heap :=
  (i, bd) :: heapErase h i

/-- Remove a slot from the store. -/
def slotErase : Slots → Coord → Slots
  | [], _ => []
  | (c', i) :: rest, c =>
    if c' = c then slotErase rest c else (c', i) :: slotErase rest c

/-- Assign a slot: `grid.contents[c.y][c.x] = block`. -/
def slotSet (s : Slots) (c : Coord) (i : Nat) : Slots :=
  (c, i) :: slotErase s c

/-- The first slot referencing identity `i`, if any. -/
def slotOf : Slots → Nat → Option Coord
  | [], _ => none
  | (c, j) :: rest, i => if j = i then some c else slotOf rest i

/-- The four grid-slide directions of the store. -/
inductive SDir where
  | up | down | lft | rgt
deriving DecidableEq, Repr

/-- One cell toward the named edge. -/
def stepToward : SDir → Coord → Coord
  | .up, c => c.above
  | .down, c => c.below
  | .lft, c => c.left
  | .rgt, c => c.right

/-- One engine operation on the shared state. -/
inductive GOp where
  /-- `Block.prototype.drop`: register identity `i` (of colour `col`)
  into the store at `c` and set the object's own coordinate to `c`
  (`grid.contents[coord] = this; ...; this.coord = coord`). -/
  | dropB : Nat → Nat → Coord → GOp
  /-- Modelled from the spec: a grid-level slide (`grid.slideUp` etc. of
  the missing `app/grid.js`) relocates the slot of every block the
  cascade policy `moves` selects one cell toward the edge and updates the
  block's own coordinate in the same step (`block.slide(direction)`). -/
  | slideG : SDir → (Coord → Bool) → GOp
  /-- `Block.prototype.destroy`: empty the slot at the block's own
  recorded coordinate (`grid.contents[this.coord.y][this.coord.x] =
  undefined`); this is the store mutation a clear performs per block. -/
  | destroyB : Nat → GOp

/-- Apply one operation. -/
def applyOp (g : GState) : GOp → GState
  | .dropB i col c =>
    { contents := slotSet g.contents c i,
      blocks := heapSet g.blocks i ⟨col, c⟩ }
  | .slideG d moves =>
    { contents := g.contents.map
        (fun p => if moves p.1 then (stepToward d p.1, p.2) else p),
      blocks := g.blocks.map
        (fun q =>
          match slotOf g.contents q.1 with
          | some c => if moves c then (q.1, { q.2 with coord := stepToward d c }) else q
          | none => q) }
  | .destroyB i =>
    match heapGet g.blocks i with
    | some bd => { g with contents := slotErase g.contents bd.coord }
    | none => g

/-- Apply a sequence of operations. -/
def applyOps (g : GState) : List GOp → GState
  | [] => g
  | op :: ops => applyOps (applyOp g op) ops

/-- Executable occupancy consistency: every slot holding a block
reference has that block's own recorded coordinate equal to the slot's
key. -/
def consistentB (g : GState) : Bool :=
  g.contents.all fun p =>
    match heapGet g.blocks p.2 with
    | some bd => bd.coord = p.1
    | none => false

/-- Occupancy consistency as a proposition. -/
def ConsistentS (g : GState) : Prop := consistentB g = true

instance (g : GState) : Decidable (ConsistentS g) := by
  unfold ConsistentS
  infer_instance

/-- Executable legality of one operation: a `drop` must target a block
that is not currently registered in the store (the lifecycle of the spec:
a block is dropped when staged, not while placed). -/
def legalOpB (g : GState) : GOp → Bool
  | .dropB i _ _ => (slotOf g.contents i).isNone
  | _ => true

/-- Executable legality of a sequence. -/
def legalSeqB : GState → List GOp → Bool
  | _, [] => true
  | g, op :: ops => legalOpB g op && legalSeqB (applyOp g op) ops

/-- The induction invariant for C5: consistency plus no block registered
in two slots at once. -/
def GoodS (g : GState) : Prop :=
  ConsistentS g ∧ (g.contents.map Prod.snd).Nodup

/-- The empty store. -/
def emptyG : GState := { contents := [], blocks := [] }

/-- The C5 counterexample sequence: drop block 1, then drop the same
(still registered) block at another coordinate. -/
def doubleDrop : List GOp := [.dropB 1 5 ⟨0, 0⟩, .dropB 1 5 ⟨1, 0⟩]

/-- A lifecycle-respecting sequence for the C5 witness: drop two fresh
blocks, slide the whole board up, destroy one block, drop a third. -/
def legalOps : List GOp :=
  [.dropB 1 5 ⟨0, 1⟩, .dropB 2 6 ⟨1, 1⟩, .slideG .up (fun _ => true),
   .destroyB 1, .dropB 3 5 ⟨0, 1⟩]

/-!
### Invariants of the recursive erase (used to settle C2)

`EraseState g₀ col r p` relates a mid-recursion state `p` (current grid
and `destroyed` list) to the grid `g₀` the clear started from: the
current grid is `g₀` with exactly the destroyed blocks' cells emptied,
and every destroyed block is an original occupant of matching colour
inside the connected region of `r`.  `ClosedExcept` is the exit
condition: every destroyed block outside the exclusion list has no
matching neighbour left in the current grid.
-/

/-- Invariant tying a mid-erase state to the starting grid `g₀`. -/
def EraseState (g₀ : Grid) (col : Nat) (r : Coord) (p : Grid × List Block) : Prop :=
  (∀ c, (∃ x ∈ p.2, x.coord = c) → Grid.get p.1 c = none) ∧
  (∀ c, (∀ x ∈ p.2, x.coord ≠ c) → Grid.get p.1 c = Grid.get g₀ c) ∧
  (∀ x ∈ p.2, Grid.get g₀ x.coord = some x ∧ x.color = col ∧ InRegion g₀ col r x.coord) ∧
  p.2.Nodup

/-- Every destroyed block outside `excl` has all four neighbours
non-matching in the current grid. -/
def ClosedExcept (col : Nat) (excl : List Block) (p : Grid × List Block) : Prop :=
  ∀ x ∈ p.2, x ∈ excl ∨
    ∀ n ∈ adjStep x.coord, matchingColor col (Grid.get p.1 n) = false

/-- The score-machine reachability invariant (used to settle C7): at
every observation point, either no checkpoint is satisfied and the level
is still 0, or the scan returns exactly the current level. -/
def ScoreInv (cfg : Config) (s : ScoreState) : Prop :=
  ((scanCheckpoints cfg.checkpoints s.current = none ∧ s.level = 0) ∨
    scanCheckpoints cfg.checkpoints s.current = some s.level) ∧
  s.level ≤ cfg.checkpoints.length

/-!
## Theorems

Helper lemmas first, then one theorem per claim (with witnesses and
counterexamples where required).
-/

/-- Spelling out a lookup after emptying a slot. -/
theorem get_eraseSlot (g : Grid) (c c' : Coord) :
    Grid.get (Grid.eraseSlot g c) c' = if c' = c then none else Grid.get g c' := by
  induction g with
  | nil => simp [Grid.eraseSlot, Grid.get]
  | cons p rest ih =>
    obtain ⟨c₀, b₀⟩ := p
    by_cases h₀ : c₀ = c
    · by_cases h₁ : c' = c
      · simp only [Grid.eraseSlot, if_pos h₀, ih, if_pos h₁]
      · have h₂ : c₀ ≠ c' := fun h => h₁ (h ▸ h₀)
        simp only [Grid.eraseSlot, if_pos h₀, ih, if_neg h₁, Grid.get, if_neg h₂]
    · by_cases h₁ : c₀ = c'
      · have h₂ : ¬ (c' = c) := fun h => h₀ (h₁.trans h)
        simp only [Grid.eraseSlot, if_neg h₀, Grid.get, if_pos h₁, if_neg h₂]
      · simp only [Grid.eraseSlot, if_neg h₀, Grid.get, if_neg h₁, ih]

/-- Emptying a slot never grows the store. -/
theorem eraseSlot_length_le (g : Grid) (c : Coord) :
    (Grid.eraseSlot g c).length ≤ g.length := by
  induction g with
  | nil => simp [Grid.eraseSlot]
  | cons p rest ih =>
    obtain ⟨c₀, b₀⟩ := p
    by_cases h₀ : c₀ = c
    · simp only [Grid.eraseSlot, if_pos h₀, List.length_cons]
      omega
    · simp only [Grid.eraseSlot, if_neg h₀, List.length_cons]
      omega

/-- Emptying an occupied slot strictly shrinks the store. -/
theorem eraseSlot_length_lt (g : Grid) (c : Coord) (b : Block)
    (h : Grid.get g c = some b) :
    (Grid.eraseSlot g c).length < g.length := by
  induction g with
  | nil => simp [Grid.get] at h
  | cons p rest ih =>
    obtain ⟨c₀, b₀⟩ := p
    by_cases h₀ : c₀ = c
    · have := eraseSlot_length_le rest c
      simp only [Grid.eraseSlot, if_pos h₀, List.length_cons]
      omega
    · simp only [Grid.get, if_neg h₀] at h
      have := ih h
      simp only [Grid.eraseSlot, if_neg h₀, List.length_cons]
      omega

/-- A successful lookup exhibits a store entry. -/
theorem get_mem (g : Grid) (c : Coord) (b : Block)
    (h : Grid.get g c = some b) : (c, b) ∈ g := by
  induction g with
  | nil => simp [Grid.get] at h
  | cons p rest ih =>
    obtain ⟨c₀, b₀⟩ := p
    by_cases h₀ : c₀ = c
    · simp only [Grid.get, if_pos h₀, Option.some.injEq] at h
      subst h₀; subst h
      exact List.mem_cons_self _ _
    · simp only [Grid.get, if_neg h₀] at h
      exact List.mem_cons_of_mem _ (ih h)

/-- On a consistent grid, a looked-up block records the queried slot. -/
theorem Consistent.coord_eq {g : Grid} (hg : Consistent g) {c : Coord} {b : Block}
    (h : Grid.get g c = some b) : b.coord = c :=
  hg (c, b) (get_mem g c b h)

/-- Unfolding one level of `eraseBlocks` into the four neighbour steps. -/
theorem eraseBlocks_succ (col fuel : Nat) (g : Grid) (d : List Block) (b : Block) :
    eraseBlocks col (fuel + 1) g d b =
      if b ∈ d then (g, d)
      else
        eraseNeighbor col fuel
          (eraseNeighbor col fuel
            (eraseNeighbor col fuel
              (eraseNeighbor col fuel
                (Grid.eraseSlot g b.coord, d ++ [b]) b.coord.below)
              b.coord.above)
            b.coord.right)
          b.coord.left := rfl

/-- Neighbour step on an empty cell: no effect. -/
theorem eraseNeighbor_eq_of_none (col f : Nat) (p : Grid × List Block) (n : Coord)
    (h : Grid.get p.1 n = none) : eraseNeighbor col f p n = p := by
  unfold eraseNeighbor
  rw [h]

/-- Neighbour step on a non-matching occupant: no effect. -/
theorem eraseNeighbor_eq_of_not_matching (col f : Nat) (p : Grid × List Block)
    (n : Coord) (nb : Block) (h : Grid.get p.1 n = some nb) (hc : ¬ nb.color = col) :
    eraseNeighbor col f p n = p := by
  unfold eraseNeighbor
  rw [h]
  simp [hc]

/-- Neighbour step on a matching occupant: recurse. -/
theorem eraseNeighbor_eq_of_matching (col f : Nat) (p : Grid × List Block)
    (n : Coord) (nb : Block) (h : Grid.get p.1 n = some nb) (hc : nb.color = col) :
    eraseNeighbor col f p n = eraseBlocks col f p.1 p.2 nb := by
  unfold eraseNeighbor
  rw [h]
  simp [hc]

/-- The destroyed list only ever grows, by appending at the tail. -/
theorem eraseBlocks_append (col : Nat) :
    ∀ (fuel : Nat) (g : Grid) (d : List Block) (b : Block),
      ∃ t, (eraseBlocks col fuel g d b).2 = d ++ t := by
  intro fuel
  induction fuel with
  | zero => intro g d b; exact ⟨[], by simp [eraseBlocks]⟩
  | succ f ih =>
    intro g d b
    have hn : ∀ (p : Grid × List Block) (n : Coord),
        ∃ t, (eraseNeighbor col f p n).2 = p.2 ++ t := by
      intro p n
      rcases hget : Grid.get p.1 n with _ | nb
      · exact ⟨[], by rw [eraseNeighbor_eq_of_none col f p n hget]; simp⟩
      · by_cases hc : nb.color = col
        · rw [eraseNeighbor_eq_of_matching col f p n nb hget hc]
          exact ih p.1 p.2 nb
        · exact ⟨[], by rw [eraseNeighbor_eq_of_not_matching col f p n nb hget hc]; simp⟩
    rw [eraseBlocks_succ]
    by_cases hbd : b ∈ d
    · exact ⟨[], by simp [hbd]⟩
    · rw [if_neg hbd]
      obtain ⟨t1, h1⟩ := hn (Grid.eraseSlot g b.coord, d ++ [b]) b.coord.below
      obtain ⟨t2, h2⟩ := hn _ b.coord.above
      obtain ⟨t3, h3⟩ := hn _ b.coord.right
      obtain ⟨t4, h4⟩ := hn _ b.coord.left
      refine ⟨[b] ++ t1 ++ t2 ++ t3 ++ t4, ?_⟩
      rw [h4, h3, h2, h1]
      simp

/-- A neighbour step also only appends to the destroyed list. -/
theorem eraseNeighbor_append (col f : Nat) (p : Grid × List Block) (n : Coord) :
    ∃ t, (eraseNeighbor col f p n).2 = p.2 ++ t := by
  rcases hget : Grid.get p.1 n with _ | nb
  · exact ⟨[], by rw [eraseNeighbor_eq_of_none col f p n hget]; simp⟩
  · by_cases hc : nb.color = col
    · rw [eraseNeighbor_eq_of_matching col f p n nb hget hc]
      exact eraseBlocks_append col f p.1 p.2 nb
    · exact ⟨[], by rw [eraseNeighbor_eq_of_not_matching col f p n nb hget hc]; simp⟩

/-- With at least one unit of fuel, the visited block ends up destroyed. -/
theorem eraseBlocks_self_mem (col fuel : Nat) (g : Grid) (d : List Block) (b : Block)
    (hf : 0 < fuel) : b ∈ (eraseBlocks col fuel g d b).2 := by
  obtain ⟨f, rfl⟩ : ∃ f, fuel = f + 1 := ⟨fuel - 1, by omega⟩
  rw [eraseBlocks_succ]
  by_cases hbd : b ∈ d
  · simp [hbd]
  · rw [if_neg hbd]
    have hpres : ∀ (p : Grid × List Block) (n : Coord) (x : Block),
        x ∈ p.2 → x ∈ (eraseNeighbor col f p n).2 := by
      intro p n x hx
      obtain ⟨t, ht⟩ := eraseNeighbor_append col f p n
      rw [ht]
      exact List.mem_append_left _ hx
    have hmem : b ∈ (Grid.eraseSlot g b.coord, d ++ [b]).2 := by simp
    exact hpres _ _ _ (hpres _ _ _ (hpres _ _ _ (hpres _ _ _ hmem)))

/-- Emptying a slot only removes occupants. -/
theorem eraseSlot_sub (g : Grid) (c₀ c : Coord) (y : Block)
    (h : Grid.get (Grid.eraseSlot g c₀) c = some y) : Grid.get g c = some y := by
  rw [get_eraseSlot] at h
  by_cases hcc : c = c₀
  · simp [hcc] at h
  · simpa [hcc] using h

/-- The erase recursion only removes occupants from the grid. -/
theorem eraseBlocks_sub (col : Nat) :
    ∀ (fuel : Nat) (g : Grid) (d : List Block) (b : Block) (c : Coord) (y : Block),
      Grid.get (eraseBlocks col fuel g d b).1 c = some y → Grid.get g c = some y := by
  intro fuel
  induction fuel with
  | zero => intro g d b c y h; simpa [eraseBlocks] using h
  | succ f ih =>
    intro g d b c y h
    have hn : ∀ (p : Grid × List Block) (n : Coord) (c : Coord) (y : Block),
        Grid.get (eraseNeighbor col f p n).1 c = some y → Grid.get p.1 c = some y := by
      intro p n c y h
      rcases hget : Grid.get p.1 n with _ | nb
      · rwa [eraseNeighbor_eq_of_none col f p n hget] at h
      · by_cases hc : nb.color = col
        · rw [eraseNeighbor_eq_of_matching col f p n nb hget hc] at h
          exact ih p.1 p.2 nb c y h
        · rwa [eraseNeighbor_eq_of_not_matching col f p n nb hget hc] at h
    rw [eraseBlocks_succ] at h
    by_cases hbd : b ∈ d
    · rw [if_pos hbd] at h
      exact h
    · rw [if_neg hbd] at h
      exact eraseSlot_sub g b.coord c y (hn _ _ _ _ (hn _ _ _ _ (hn _ _ _ _ (hn _ _ _ _ h))))

/-- A neighbour step only removes occupants from the grid. -/
theorem eraseNeighbor_sub (col f : Nat) (p : Grid × List Block) (n c : Coord) (y : Block)
    (h : Grid.get (eraseNeighbor col f p n).1 c = some y) : Grid.get p.1 c = some y := by
  rcases hget : Grid.get p.1 n with _ | nb
  · rwa [eraseNeighbor_eq_of_none col f p n hget] at h
  · by_cases hc : nb.color = col
    · rw [eraseNeighbor_eq_of_matching col f p n nb hget hc] at h
      exact eraseBlocks_sub col f p.1 p.2 nb c y h
    · rwa [eraseNeighbor_eq_of_not_matching col f p n nb hget hc] at h

/-- The erase recursion never grows the grid. -/
theorem eraseBlocks_length_le (col : Nat) :
    ∀ (fuel : Nat) (g : Grid) (d : List Block) (b : Block),
      (eraseBlocks col fuel g d b).1.length ≤ g.length := by
  intro fuel
  induction fuel with
  | zero => intro g d b; simp [eraseBlocks]
  | succ f ih =>
    intro g d b
    have hn : ∀ (p : Grid × List Block) (n : Coord),
        (eraseNeighbor col f p n).1.length ≤ p.1.length := by
      intro p n
      rcases hget : Grid.get p.1 n with _ | nb
      · rw [eraseNeighbor_eq_of_none col f p n hget]
      · by_cases hc : nb.color = col
        · rw [eraseNeighbor_eq_of_matching col f p n nb hget hc]
          exact ih p.1 p.2 nb
        · rw [eraseNeighbor_eq_of_not_matching col f p n nb hget hc]
    rw [eraseBlocks_succ]
    by_cases hbd : b ∈ d
    · simp [hbd]
    · rw [if_neg hbd]
      have h4 := hn (eraseNeighbor col f (eraseNeighbor col f (eraseNeighbor col f
        (Grid.eraseSlot g b.coord, d ++ [b]) b.coord.below) b.coord.above) b.coord.right)
        b.coord.left
      have h3 := hn (eraseNeighbor col f (eraseNeighbor col f
        (Grid.eraseSlot g b.coord, d ++ [b]) b.coord.below) b.coord.above) b.coord.right
      have h2 := hn (eraseNeighbor col f
        (Grid.eraseSlot g b.coord, d ++ [b]) b.coord.below) b.coord.above
      have h1 : (eraseNeighbor col f (Grid.eraseSlot g b.coord, d ++ [b])
          b.coord.below).1.length ≤ (Grid.eraseSlot g b.coord).length :=
        hn (Grid.eraseSlot g b.coord, d ++ [b]) b.coord.below
      have h0 := eraseSlot_length_le g b.coord
      omega

/-- A neighbour step never grows the grid. -/
theorem eraseNeighbor_length_le (col f : Nat) (p : Grid × List Block) (n : Coord) :
    (eraseNeighbor col f p n).1.length ≤ p.1.length := by
  rcases hget : Grid.get p.1 n with _ | nb
  · rw [eraseNeighbor_eq_of_none col f p n hget]
  · by_cases hc : nb.color = col
    · rw [eraseNeighbor_eq_of_matching col f p n nb hget hc]
      exact eraseBlocks_length_le col f p.1 p.2 nb
    · rw [eraseNeighbor_eq_of_not_matching col f p n nb hget hc]

/-- Everything the recursion destroys was already destroyed, is the
visited block itself, or is a matching-coloured occupant of the starting
grid. -/
theorem eraseBlocks_mem_source (col : Nat) :
    ∀ (fuel : Nat) (g : Grid) (d : List Block) (b : Block) (x : Block),
      x ∈ (eraseBlocks col fuel g d b).2 →
      x ∈ d ∨ x = b ∨ (x.color = col ∧ ∃ c, Grid.get g c = some x) := by
  intro fuel
  induction fuel with
  | zero => intro g d b x hx; left; simpa [eraseBlocks] using hx
  | succ f ih =>
    intro g d b x hx
    have hn : ∀ (p : Grid × List Block) (n : Coord) (x : Block),
        x ∈ (eraseNeighbor col f p n).2 →
        x ∈ p.2 ∨ (x.color = col ∧ ∃ c, Grid.get p.1 c = some x) := by
      intro p n x hx
      rcases hget : Grid.get p.1 n with _ | nb
      · rw [eraseNeighbor_eq_of_none col f p n hget] at hx
        exact Or.inl hx
      · by_cases hc : nb.color = col
        · rw [eraseNeighbor_eq_of_matching col f p n nb hget hc] at hx
          rcases ih p.1 p.2 nb x hx with h | h | h
          · exact Or.inl h
          · subst h; exact Or.inr ⟨hc, n, hget⟩
          · exact Or.inr h
        · rw [eraseNeighbor_eq_of_not_matching col f p n nb hget hc] at hx
          exact Or.inl hx
    rw [eraseBlocks_succ] at hx
    by_cases hbd : b ∈ d
    · rw [if_pos hbd] at hx
      exact Or.inl hx
    · rw [if_neg hbd] at hx
      rcases hn _ _ _ hx with h3 | h3
      · rcases hn _ _ _ h3 with h2 | h2
        · rcases hn _ _ _ h2 with h1 | h1
          · rcases hn _ _ _ h1 with h0 | h0
            · rcases List.mem_append.mp h0 with h | h
              · exact Or.inl h
              · simp only [List.mem_singleton] at h
                exact Or.inr (Or.inl h)
            · obtain ⟨hcol, c, hc⟩ := h0
              exact Or.inr (Or.inr ⟨hcol, c, eraseSlot_sub g b.coord c x hc⟩)
          · obtain ⟨hcol, c, hc⟩ := h1
            exact Or.inr (Or.inr ⟨hcol, c,
              eraseSlot_sub g b.coord c x (eraseNeighbor_sub col f _ _ c x hc)⟩)
        · obtain ⟨hcol, c, hc⟩ := h2
          exact Or.inr (Or.inr ⟨hcol, c, eraseSlot_sub g b.coord c x
            (eraseNeighbor_sub col f _ _ c x (eraseNeighbor_sub col f _ _ c x hc))⟩)
      · obtain ⟨hcol, c, hc⟩ := h3
        exact Or.inr (Or.inr ⟨hcol, c, eraseSlot_sub g b.coord c x
          (eraseNeighbor_sub col f _ _ c x (eraseNeighbor_sub col f _ _ c x
            (eraseNeighbor_sub col f _ _ c x hc)))⟩)

/-- Between two invariant states whose destroyed lists are ordered by
inclusion, the later grid is contained in the earlier one. -/
theorem state_sub {g₀ : Grid} {col : Nat} {r : Coord} {p q : Grid × List Block}
    (hp : EraseState g₀ col r p) (hq : EraseState g₀ col r q)
    (hmem : ∀ x ∈ p.2, x ∈ q.2) :
    ∀ c y, Grid.get q.1 c = some y → Grid.get p.1 c = some y := by
  intro c y h
  by_cases hex : ∃ x ∈ q.2, x.coord = c
  · rw [hq.1 c hex] at h
    exact Option.noConfusion h
  · push_neg at hex
    have hp2 : ∀ x ∈ p.2, x.coord ≠ c := fun x hx => hex x (hmem x hx)
    rw [hp.2.1 c hp2, ← hq.2.1 c hex]
    exact h

/-- A non-matching cell stays non-matching when the grid only shrinks. -/
theorem matching_persist {col : Nat} {gq gp : Grid}
    (hsub : ∀ c y, Grid.get gq c = some y → Grid.get gp c = some y)
    {n : Coord} (hf : matchingColor col (Grid.get gp n) = false) :
    matchingColor col (Grid.get gq n) = false := by
  rcases hq : Grid.get gq n with _ | y
  · simp [matchingColor]
  · have h := hsub n y hq
    rw [h] at hf
    exact hf

/-- Master invariant of the erase recursion: started on a consistent grid
with enough fuel, visiting an in-region occupant preserves the invariant,
only appends to the destroyed list, destroys the visited block, leaves
every newly destroyed block with no matching neighbour, and shrinks the
grid. -/
theorem erase_master (g₀ : Grid) (col : Nat) (r : Coord) (hg₀ : Consistent g₀) :
    ∀ (fuel : Nat) (g : Grid) (d : List Block) (b : Block),
      g.length < fuel →
      EraseState g₀ col r (g, d) →
      Grid.get g b.coord = some b →
      b.color = col →
      InRegion g₀ col r b.coord →
      EraseState g₀ col r (eraseBlocks col fuel g d b) ∧
      (∃ t, (eraseBlocks col fuel g d b).2 = d ++ t) ∧
      b ∈ (eraseBlocks col fuel g d b).2 ∧
      ClosedExcept col d (eraseBlocks col fuel g d b) ∧
      (eraseBlocks col fuel g d b).1.length ≤ g.length := by
  intro fuel
  induction fuel with
  | zero =>
    intro g d b hlen _ _ _ _
    exact absurd hlen (Nat.not_lt_zero _)
  | succ f ih =>
    intro g d b hlen hst hb hcol hreg
    by_cases hbd : b ∈ d
    · rw [eraseBlocks_succ, if_pos hbd]
      refine ⟨hst, ⟨[], by simp⟩, hbd, ?_, le_refl _⟩
      intro x hx
      exact Or.inl hx
    · obtain ⟨hI1, hI2, hH3, hnd⟩ := hst
      have hbc_ne : ∀ x ∈ d, x.coord ≠ b.coord := by
        intro x hx h
        have h0 := hI1 b.coord ⟨x, hx, h⟩
        rw [h0] at hb
        exact Option.noConfusion hb
      have hg0b : Grid.get g₀ b.coord = some b := by
        rw [← hI2 b.coord hbc_ne]
        exact hb
      rw [eraseBlocks_succ, if_neg hbd]
      set p0 : Grid × List Block := (Grid.eraseSlot g b.coord, d ++ [b]) with hp0def
      have hst0 : EraseState g₀ col r p0 := by
        refine ⟨?_, ?_, ?_, ?_⟩
        · intro c hex
          obtain ⟨x, hx, hxc⟩ := hex
          rcases List.mem_append.mp hx with hx | hx
          · have h0 := hI1 c ⟨x, hx, hxc⟩
            show Grid.get (Grid.eraseSlot g b.coord) c = none
            rw [get_eraseSlot]
            by_cases hcc : c = b.coord
            · simp [hcc]
            · simp [hcc, h0]
          · simp only [List.mem_singleton] at hx
            have hcb : c = b.coord := by rw [← hxc, hx]
            show Grid.get (Grid.eraseSlot g b.coord) c = none
            rw [get_eraseSlot, if_pos hcb]
        · intro c hne
          have hne_d : ∀ x ∈ d, x.coord ≠ c := fun x hx =>
            hne x (List.mem_append_left _ hx)
          have hne_b : b.coord ≠ c :=
            hne b (List.mem_append_right _ (List.mem_singleton_self b))
          show Grid.get (Grid.eraseSlot g b.coord) c = Grid.get g₀ c
          rw [get_eraseSlot, if_neg (fun h => hne_b h.symm)]
          exact hI2 c hne_d
        · intro x hx
          rcases List.mem_append.mp hx with hx | hx
          · exact hH3 x hx
          · simp only [List.mem_singleton] at hx
            subst hx
            exact ⟨hg0b, hcol, hreg⟩
        · simp only [List.nodup_append, List.nodup_singleton, true_and]
          exact ⟨hnd, by simp [List.disjoint_singleton, hbd]⟩
      have hp0len : p0.1.length < g.length := eraseSlot_length_lt g b.coord b hb
      have hstep : ∀ (p : Grid × List Block) (n : Coord),
          EraseState g₀ col r p →
          p.1.length < f →
          n ∈ adjStep b.coord →
          EraseState g₀ col r (eraseNeighbor col f p n) ∧
          (∃ t, (eraseNeighbor col f p n).2 = p.2 ++ t) ∧
          matchingColor col (Grid.get (eraseNeighbor col f p n).1 n) = false ∧
          ClosedExcept col p.2 (eraseNeighbor col f p n) ∧
          (eraseNeighbor col f p n).1.length ≤ p.1.length := by
        intro p n hstp hplen hadj
        rcases hget : Grid.get p.1 n with _ | nb
        · rw [eraseNeighbor_eq_of_none col f p n hget]
          refine ⟨hstp, ⟨[], by simp⟩, by rw [hget]; simp [matchingColor], ?_, le_refl _⟩
          intro x hx
          exact Or.inl hx
        · by_cases hc : nb.color = col
          · rw [eraseNeighbor_eq_of_matching col f p n nb hget hc]
            have hg0n : Grid.get g₀ n = some nb := by
              by_cases hex : ∃ x ∈ p.2, x.coord = n
              · have h0 := hstp.1 n hex
                rw [h0] at hget
                exact Option.noConfusion hget
              · push_neg at hex
                rw [← hstp.2.1 n hex]
                exact hget
            have hnbc : nb.coord = n := hg₀ (n, nb) (get_mem g₀ n nb hg0n)
            have hreg_n : InRegion g₀ col r n :=
              Relation.ReflTransGen.tail hreg
                ⟨hadj, by rw [hg0n]; simp [matchingColor, hc]⟩
            obtain ⟨hst', happ', hmem', hcl', hlen'⟩ :=
              ih p.1 p.2 nb hplen hstp (by rw [hnbc]; exact hget) hc
                (by rw [hnbc]; exact hreg_n)
            refine ⟨hst', happ', ?_, hcl', hlen'⟩
            have hnone : Grid.get (eraseBlocks col f p.1 p.2 nb).1 n = none :=
              hst'.1 n ⟨nb, hmem', hnbc⟩
            rw [hnone]
            simp [matchingColor]
          · rw [eraseNeighbor_eq_of_not_matching col f p n nb hget hc]
            refine ⟨hstp, ⟨[], by simp⟩, ?_, ?_, le_refl _⟩
            · rw [hget]
              simp [matchingColor, hc]
            · intro x hx
              exact Or.inl hx
      have hlen0 : p0.1.length < f := by omega
      obtain ⟨hst1, happ1, hm1, hcl1, hlen1⟩ :=
        hstep p0 b.coord.below hst0 hlen0 (by simp [adjStep])
      set p1 := eraseNeighbor col f p0 b.coord.below with hp1def
      have hlen1' : p1.1.length < f := by omega
      obtain ⟨hst2, happ2, hm2, hcl2, hlen2⟩ :=
        hstep p1 b.coord.above hst1 hlen1' (by simp [adjStep])
      set p2 := eraseNeighbor col f p1 b.coord.above with hp2def
      have hlen2' : p2.1.length < f := by omega
      obtain ⟨hst3, happ3, hm3, hcl3, hlen3⟩ :=
        hstep p2 b.coord.right hst2 hlen2' (by simp [adjStep])
      set p3 := eraseNeighbor col f p2 b.coord.right with hp3def
      have hlen3' : p3.1.length < f := by omega
      obtain ⟨hst4, happ4, hm4, hcl4, hlen4⟩ :=
        hstep p3 b.coord.left hst3 hlen3' (by simp [adjStep])
      set p4 := eraseNeighbor col f p3 b.coord.left with hp4def
      obtain ⟨t1, ht1⟩ := happ1
      obtain ⟨t2, ht2⟩ := happ2
      obtain ⟨t3, ht3⟩ := happ3
      obtain ⟨t4, ht4⟩ := happ4
      have hmem14 : ∀ x ∈ p1.2, x ∈ p4.2 := by
        intro x hx
        rw [ht4, ht3, ht2]
        exact List.mem_append_left _ (List.mem_append_left _ (List.mem_append_left _ hx))
      have hmem24 : ∀ x ∈ p2.2, x ∈ p4.2 := by
        intro x hx
        rw [ht4, ht3]
        exact List.mem_append_left _ (List.mem_append_left _ hx)
      have hmem34 : ∀ x ∈ p3.2, x ∈ p4.2 := by
        intro x hx
        rw [ht4]
        exact List.mem_append_left _ hx
      have hsub41 := state_sub hst1 hst4 hmem14
      have hsub42 := state_sub hst2 hst4 hmem24
      have hsub43 := state_sub hst3 hst4 hmem34
      have hmb : ∀ n ∈ adjStep b.coord, matchingColor col (Grid.get p4.1 n) = false := by
        intro n hn
        simp only [adjStep, List.mem_cons, List.mem_singleton, List.not_mem_nil, or_false] at hn
        rcases hn with rfl | rfl | rfl | rfl
        · exact matching_persist hsub41 hm1
        · exact matching_persist hsub42 hm2
        · exact matching_persist hsub43 hm3
        · exact hm4
      refine ⟨hst4, ?_, ?_, ?_, ?_⟩
      · refine ⟨[b] ++ t1 ++ t2 ++ t3 ++ t4, ?_⟩
        rw [ht4, ht3, ht2, ht1]
        simp
      · have hb0 : b ∈ p0.2 := List.mem_append_right _ (List.mem_singleton_self b)
        exact hmem14 _ (by rw [ht1]; exact List.mem_append_left _ hb0)
      · intro x hx
        by_cases hx3 : x ∈ p3.2
        · by_cases hx2 : x ∈ p2.2
          · by_cases hx1 : x ∈ p1.2
            · by_cases hx0 : x ∈ p0.2
              · rcases List.mem_append.mp hx0 with hxd | hxb
                · exact Or.inl hxd
                · simp only [List.mem_singleton] at hxb
                  subst hxb
                  exact Or.inr hmb
              · rcases hcl1 x hx1 with h | h
                · exact absurd h hx0
                · exact Or.inr fun n hn => matching_persist hsub41 (h n hn)
            · rcases hcl2 x hx2 with h | h
              · exact absurd h hx1
              · exact Or.inr fun n hn => matching_persist hsub42 (h n hn)
          · rcases hcl3 x hx3 with h | h
            · exact absurd h hx2
            · exact Or.inr fun n hn => matching_persist hsub43 (h n hn)
        · rcases hcl4 x hx with h | h
          · exact absurd h hx3
          · exact Or.inr h
      · have h0 : p0.1.length ≤ g.length := le_of_lt hp0len
        omega

/-- C1: for every block on which `clear()` is invoked, blocks are
destroyed if and only if at least one of the four 2×2 candidate squares
with bottom-left corner `(x,y)`, `(x-1,y)`, `(x,y-1)` or `(x-1,y-1)` has
all four cells occupied by blocks whose colour equals the triggering
block's colour; when none matches, `clear()` leaves the grid untouched
and destroys nothing. -/
theorem C1_square_gate (g : Grid) (b : Block) :
    ((clear g b).2 ≠ [] ↔
      (checkForClear g b.color b.coord ||
       checkForClear g b.color b.coord.left ||
       checkForClear g b.color b.coord.above ||
       checkForClear g b.color b.coord.left.above) = true) ∧
    ((checkForClear g b.color b.coord ||
      checkForClear g b.color b.coord.left ||
      checkForClear g b.color b.coord.above ||
      checkForClear g b.color b.coord.left.above) = false →
      clear g b = (g, [])) := by
  have hd : (checkForClear g b.color b.coord ||
      checkForClear g b.color b.coord.left ||
      checkForClear g b.color b.coord.above ||
      checkForClear g b.color b.coord.left.above) = doClear g b := rfl
  rw [hd]
  constructor
  · cases hdc : doClear g b
    · simp [clear, hdc]
    · have hne : (clear g b).2 ≠ [] := by
        have hmem := eraseBlocks_self_mem b.color (g.length + 1) g [] b (Nat.succ_pos _)
        unfold clear
        rw [if_pos hdc]
        intro hnil
        rw [hnil] at hmem
        simp at hmem
      simp [hne, hdc]
  · intro h
    simp [clear, h]

/-- C2: when the square-formation gate passes on a placed block of a
consistent grid, the destroyed blocks are exactly the occupants of the
connected region reachable from the triggering block through
4-directionally adjacent cells of the same colour, and no block is
destroyed twice. -/
theorem C2_flood_fill (g : Grid) (b : Block)
    (hg : Consistent g) (hb : Grid.get g b.coord = some b)
    (hgate : doClear g b = true) :
    ((clear g b).2).Nodup ∧
    ∀ x : Block, x ∈ (clear g b).2 ↔
      (Grid.get g x.coord = some x ∧ InRegion g b.color b.coord x.coord) := by
  have hclear : clear g b = eraseBlocks b.color (g.length + 1) g [] b := by
    unfold clear
    rw [if_pos hgate]
  have hst_init : EraseState g b.color b.coord (g, ([] : List Block)) := by
    refine ⟨?_, ?_, ?_, ?_⟩
    · rintro c ⟨x, hx, -⟩
      simp at hx
    · intro c _
      rfl
    · intro x hx
      simp at hx
    · exact List.nodup_nil
  obtain ⟨hst, happ, hmem, hcl, hlen⟩ :=
    erase_master g b.color b.coord hg (g.length + 1) g [] b (by omega) hst_init hb rfl
      Relation.ReflTransGen.refl
  rw [hclear]
  set res := eraseBlocks b.color (g.length + 1) g [] b with hres
  have hcomp : ∀ c, InRegion g b.color b.coord c → ∃ y ∈ res.2, y.coord = c := by
    intro c hc
    induction hc with
    | refl => exact ⟨b, hmem, rfl⟩
    | @tail m c' hsteps hstep ihc =>
      obtain ⟨y, hy, hyc⟩ := ihc
      obtain ⟨hadj, hmatch⟩ := hstep
      by_cases hex : ∃ z ∈ res.2, z.coord = c'
      · exact hex
      · push_neg at hex
        have heq : Grid.get res.1 c' = Grid.get g c' := hst.2.1 c' hex
        have hclosed : ∀ m ∈ adjStep y.coord, matchingColor b.color (Grid.get res.1 m) = false := by
          rcases hcl y hy with h | h
          · simp at h
          · exact h
        have hfalse := hclosed _ (by rw [hyc]; exact hadj)
        rw [heq] at hfalse
        rw [hfalse] at hmatch
        exact Bool.noConfusion hmatch
  constructor
  · exact hst.2.2.2
  · intro x
    constructor
    · intro hx
      have h3 := hst.2.2.1 x hx
      exact ⟨h3.1, h3.2.2⟩
    · rintro ⟨hxg, hxreg⟩
      obtain ⟨y, hy, hyc⟩ := hcomp x.coord hxreg
      have hgy := (hst.2.2.1 y hy).1
      rw [hyc, hxg] at hgy
      rw [Option.some.inj hgy]
      exact hy

/-- Witness for C2 on the spec's concrete scenario: a 2×2 red square. -/
theorem C2_flood_fill_witness :
    Consistent (sq22 redColor) ∧
    (((clear (sq22 redColor) (sqBlock redColor)).2).Nodup ∧
      ∀ x : Block, x ∈ (clear (sq22 redColor) (sqBlock redColor)).2 ↔
        (Grid.get (sq22 redColor) x.coord = some x ∧
          InRegion (sq22 redColor) (sqBlock redColor).color
            (sqBlock redColor).coord x.coord)) :=
  ⟨by decide,
   C2_flood_fill (sq22 redColor) (sqBlock redColor) (by decide) (by decide) (by decide)⟩

/-- C3: a lookup outside the grid extent is empty, hence non-matching,
and both phases of `clear()` complete with every destroyed block being
the trigger itself or an occupant of an in-bounds cell; the operation is
total on boundary blocks. -/
theorem C3_boundary (n : Nat) (g : Grid) (b : Block)
    (hg : ∀ p ∈ g, inBounds n p.1) :
    (∀ c, ¬ inBounds n c →
      Grid.get g c = none ∧ matchingColor b.color (Grid.get g c) = false) ∧
    (∀ x ∈ (clear g b).2,
      x = b ∨ (x.color = b.color ∧ ∃ c, inBounds n c ∧ Grid.get g c = some x)) := by
  have hnone : ∀ c, ¬ inBounds n c → Grid.get g c = none := by
    intro c hc
    rcases hgc : Grid.get g c with _ | y
    · rfl
    · exact absurd (hg (c, y) (get_mem g c y hgc)) hc
  constructor
  · intro c hc
    have h0 := hnone c hc
    exact ⟨h0, by rw [h0]; simp [matchingColor]⟩
  · intro x hx
    unfold clear at hx
    by_cases hdc : doClear g b = true
    · rw [if_pos hdc] at hx
      rcases eraseBlocks_mem_source b.color (g.length + 1) g [] b x hx with h | h | h
      · simp at h
      · exact Or.inl h
      · obtain ⟨hcol, c, hc⟩ := h
        exact Or.inr ⟨hcol, c, hg (c, x) (get_mem g c x hc), hc⟩
    · rw [if_neg hdc] at hx
      simp at hx

/-- Witness for C3 on a 2×2 board whose every cell is a boundary cell. -/
theorem C3_boundary_witness :
    (∀ p ∈ sq22 redColor, inBounds 2 p.1) ∧
    ((∀ c, ¬ inBounds 2 c →
      Grid.get (sq22 redColor) c = none ∧
        matchingColor (sqBlock redColor).color (Grid.get (sq22 redColor) c) = false) ∧
      (∀ x ∈ (clear (sq22 redColor) (sqBlock redColor)).2,
        x = sqBlock redColor ∨ ((x).color = (sqBlock redColor).color ∧
          ∃ c, inBounds 2 c ∧ Grid.get (sq22 redColor) c = some x))) :=
  ⟨by decide, C3_boundary 2 (sq22 redColor) (sqBlock redColor) (by decide)⟩

/-- Counterexample to C4 as stated: `clear()` invoked on a block whose
colour is the unbreakable sentinel, sitting in a 2×2 square of
unbreakable blocks, passes the gate and destroys unbreakable blocks. -/
theorem C4_counterexample :
    (sqBlock unbreakableColor).color = unbreakableColor ∧
    doClear (sq22 unbreakableColor) (sqBlock unbreakableColor) = true ∧
    sqBlock unbreakableColor ∈
      (clear (sq22 unbreakableColor) (sqBlock unbreakableColor)).2 :=
  ⟨rfl, by decide, by decide⟩

/-- C4 (amended): for every clear triggered by a block whose colour is
not the unbreakable sentinel, no destroyed block carries the sentinel
colour, and no 2×2 candidate square that triggers contains a cell
occupied by a sentinel-coloured block. -/
theorem C4_unbreakable_immunity (g : Grid) (b : Block)
    (hb : b.color ≠ unbreakableColor) :
    (∀ x ∈ (clear g b).2, x.color ≠ unbreakableColor) ∧
    (∀ c : Coord, checkForClear g b.color c = true →
      ∀ m ∈ [c, c.below, c.right, c.below.right], ∀ y : Block,
        Grid.get g m = some y → y.color ≠ unbreakableColor) := by
  constructor
  · intro x hx
    unfold clear at hx
    by_cases hdc : doClear g b = true
    · rw [if_pos hdc] at hx
      rcases eraseBlocks_mem_source b.color (g.length + 1) g [] b x hx with h | h | h
      · simp at h
      · rw [h]
        exact hb
      · rw [h.1]
        exact hb
    · rw [if_neg hdc] at hx
      simp at hx
  · intro c hchk m hm y hy hyu
    unfold checkForClear at hchk
    simp only [Bool.and_eq_true] at hchk
    obtain ⟨⟨⟨h1, h2⟩, h3⟩, h4⟩ := hchk
    simp only [List.mem_cons, List.mem_singleton, List.not_mem_nil, or_false] at hm
    have hmatch : matchingColor b.color (Grid.get g m) = true := by
      rcases hm with rfl | rfl | rfl | rfl
      · exact h1
      · exact h2
      · exact h3
      · exact h4
    rw [hy] at hmatch
    simp only [matchingColor, decide_eq_true_eq] at hmatch
    rw [hyu] at hmatch
    exact hb hmatch.symm

/-- Witness for the amended C4: a red 2×2 square with an unbreakable
neighbour; the clear never destroys a sentinel-coloured block. -/
theorem C4_unbreakable_immunity_witness :
    (sqBlock redColor).color ≠ unbreakableColor ∧
    ((∀ x ∈ (clear mixedGrid (sqBlock redColor)).2, x.color ≠ unbreakableColor) ∧
      (∀ c : Coord, checkForClear mixedGrid (sqBlock redColor).color c = true →
        ∀ m ∈ [c, c.below, c.right, c.below.right], ∀ y : Block,
          Grid.get mixedGrid m = some y → y.color ≠ unbreakableColor)) :=
  ⟨by decide, C4_unbreakable_immunity mixedGrid (sqBlock redColor) (by decide)⟩

/-- Counterexample to C9 as stated: `"TOP"` is outside the set
`{top, bottom, left, right}` yet `slide` succeeds (the source lowercases
its argument before the switch) and moves the coordinate. -/
theorem C9_counterexample :
    "TOP" ∉ (["top", "bottom", "left", "right"] : List String) ∧
    slide "TOP" ⟨5, 5⟩ = .ok ⟨5, 4⟩ :=
  ⟨by decide, rfl⟩

/-- C9 (amended): `slide` fails with the `InvalidDirection` error —
leaving the coordinate unmutated — exactly when the lowercased direction
is outside `{top, bottom, left, right}`; for each recognised value it
moves the coordinate one cell on the corresponding single axis. -/
theorem C9_slide_directions (direction : String) (c : Coord) :
    (strToLower direction ∉ (["top", "bottom", "left", "right"] : List String) →
      slide direction c = .error ("Invalid argument to Block.slide: " ++ direction)) ∧
    (strToLower direction = "top" → slide direction c = .ok ⟨c.x, c.y - 1⟩) ∧
    (strToLower direction = "bottom" → slide direction c = .ok ⟨c.x, c.y + 1⟩) ∧
    (strToLower direction = "left" → slide direction c = .ok ⟨c.x - 1, c.y⟩) ∧
    (strToLower direction = "right" → slide direction c = .ok ⟨c.x + 1, c.y⟩) := by
  refine ⟨?_, ?_, ?_, ?_, ?_⟩
  · intro h
    simp only [List.mem_cons, List.mem_singleton, List.not_mem_nil, or_false, not_or] at h
    obtain ⟨h1, h2, h3, h4⟩ := h
    simp [slide, h1, h2, h3, h4]
  · intro h
    simp [slide, h]
  · intro h
    simp [slide, h]
  · intro h
    simp [slide, h]
  · intro h
    simp [slide, h]

/-- Witness for the amended C9: a misspelled direction errors, an
uppercase recognised direction moves one cell down. -/
theorem C9_slide_directions_witness :
    slide "diagonal" ⟨3, 3⟩ = .error "Invalid argument to Block.slide: diagonal" ∧
    slide "BOTTOM" ⟨3, 3⟩ = .ok ⟨3, 4⟩ :=
  ⟨(C9_slide_directions "diagonal" ⟨3, 3⟩).1 (by decide),
   (C9_slide_directions "BOTTOM" ⟨3, 3⟩).2.2.1 (by decide)⟩

/-- C10: a `Block` constructed with the colour argument omitted or equal
to the falsy numeric colour `0` gets the unbreakable sentinel colour;
any truthy colour is kept. -/
theorem C10_falsy_color (u : Nat) :
    blockColor u none = u ∧ blockColor u (some 0) = u ∧
    ∀ v : Nat, blockColor u (some v) = if v = 0 then u else v :=
  ⟨rfl, by simp [blockColor], fun v => rfl⟩

/-- Spelling out a heap lookup after erasing an identity. -/
theorem heapGet_heapErase (h : Heap) (i j : Nat) :
    heapGet (heapErase h i) j = if i = j then none else heapGet h j := by
  induction h with
  | nil => simp [heapErase, heapGet]
  | cons q rest ih =>
    obtain ⟨i₀, bd₀⟩ := q
    by_cases h₀ : i₀ = i
    · by_cases h₁ : i = j
      · simp only [heapErase, if_pos h₀, ih, if_pos h₁]
      · have h₂ : i₀ ≠ j := fun hh => h₁ (h₀ ▸ hh)
        simp only [heapErase, if_pos h₀, ih, if_neg h₁, heapGet, if_neg h₂]
    · by_cases h₁ : i₀ = j
      · have h₂ : ¬ (i = j) := fun hh => h₀ (h₁.symm ▸ hh).symm
        simp only [heapErase, if_neg h₀, heapGet, if_pos h₁, if_neg h₂]
      · simp only [heapErase, if_neg h₀, heapGet, if_neg h₁, ih]

/-- Spelling out a heap lookup after overwriting an identity. -/
theorem heapGet_heapSet (h : Heap) (i : Nat) (bd : BlockData) (j : Nat) :
    heapGet (heapSet h i bd) j = if i = j then some bd else heapGet h j := by
  by_cases h₁ : i = j
  · simp [heapSet, heapGet, h₁]
  · simp only [heapSet, heapGet, if_neg h₁]
    rw [heapGet_heapErase, if_neg h₁]

/-- Erasing a slot yields a sublist of the store. -/
theorem slotErase_sublist (s : Slots) (c : Coord) : (slotErase s c).Sublist s := by
  induction s with
  | nil => simp [slotErase]
  | cons p rest ih =>
    obtain ⟨c₀, i₀⟩ := p
    by_cases h₀ : c₀ = c
    · simp only [slotErase, if_pos h₀]
      exact ih.cons _
    · simp only [slotErase, if_neg h₀]
      exact ih.cons₂ _

/-- If no slot references `i`, no store entry carries `i`. -/
theorem slotOf_none (s : Slots) (i : Nat) (h : slotOf s i = none) :
    ∀ p ∈ s, p.2 ≠ i := by
  induction s with
  | nil => intro p hp; simp at hp
  | cons q rest ih =>
    obtain ⟨c₀, i₀⟩ := q
    intro p hp
    by_cases h₀ : i₀ = i
    · simp [slotOf, h₀] at h
    · simp only [slotOf, if_neg h₀] at h
      rcases List.mem_cons.mp hp with rfl | hp'
      · exact h₀
      · exact ih h p hp'

/-- With no duplicate identities, `slotOf` finds the unique slot. -/
theorem slotOf_nodup (s : Slots) (hnd : (s.map Prod.snd).Nodup) (c : Coord) (i : Nat)
    (hmem : (c, i) ∈ s) : slotOf s i = some c := by
  induction s with
  | nil => simp at hmem
  | cons q rest ih =>
    obtain ⟨c₀, i₀⟩ := q
    simp only [List.map_cons, List.nodup_cons] at hnd
    obtain ⟨hnotin, hnd'⟩ := hnd
    rcases List.mem_cons.mp hmem with heq | hmem'
    · injection heq with hc hi
      simp only [slotOf, if_pos hi.symm]
      rw [hc]
    · have hi : i₀ ≠ i := by
        intro hh
        exact hnotin (hh ▸ (List.mem_map.mpr ⟨(c, i), hmem', rfl⟩))
      simp only [slotOf, if_neg hi]
      exact ih hnd' hmem'

/-- Per-entry characterisation of store consistency. -/
theorem consistentS_iff (g : GState) :
    ConsistentS g ↔
      ∀ p ∈ g.contents, ∃ bd, heapGet g.blocks p.2 = some bd ∧ bd.coord = p.1 := by
  unfold ConsistentS consistentB
  rw [List.all_eq_true]
  constructor
  · intro h p hp
    have h0 := h p hp
    rcases hg : heapGet g.blocks p.2 with _ | bd
    · rw [hg] at h0
      simp at h0
    · rw [hg] at h0
      simp at h0
      exact ⟨bd, rfl, h0⟩
  · intro h p hp
    obtain ⟨bd, hbd, hc⟩ := h p hp
    rw [hbd]
    simp [hc]

/-- Heap lookup after the slide remap, for an identity whose unique slot
is known. -/
theorem heapGet_slideMap (contents : Slots) (d : SDir) (moves : Coord → Bool)
    (h : Heap) (i : Nat) (bd : BlockData) (c : Coord)
    (hget : heapGet h i = some bd) (hslot : slotOf contents i = some c) :
    heapGet (h.map (fun q =>
      match slotOf contents q.1 with
      | some c0 => if moves c0 then (q.1, { q.2 with coord := stepToward d c0 }) else q
      | none => q)) i =
      some (if moves c then { bd with coord := stepToward d c } else bd) := by
  induction h with
  | nil => simp [heapGet] at hget
  | cons q rest ih =>
    obtain ⟨i₀, bd₀⟩ := q
    by_cases h₀ : i₀ = i
    · subst h₀
      simp only [heapGet, if_pos] at hget
      injection hget with hget
      subst hget
      simp only [List.map_cons, hslot]
      by_cases hm : moves c
      · rw [if_pos hm, if_pos hm]
        simp [heapGet]
      · rw [if_neg hm, if_neg hm]
        simp [heapGet]
    · simp only [heapGet, if_neg h₀] at hget
      simp only [List.map_cons]
      rcases hs : slotOf contents i₀ with _ | c₀
      · simp only [hs]
        simp only [heapGet, if_neg h₀]
        exact ih hget
      · simp only [hs]
        by_cases hm : moves c₀
        · rw [if_pos hm]
          simp only [heapGet, if_neg h₀]
          exact ih hget
        · rw [if_neg hm]
          simp only [heapGet, if_neg h₀]
          exact ih hget

/-- One legal operation preserves consistency and identity uniqueness. -/
theorem good_step (g : GState) (op : GOp) (hg : GoodS g)
    (hop : legalOpB g op = true) : GoodS (applyOp g op) := by
  obtain ⟨hcons, hnd⟩ := hg
  rw [consistentS_iff] at hcons
  cases op with
  | dropB i col c =>
    simp only [legalOpB, Option.isNone_iff_eq_none] at hop
    have hne : ∀ p ∈ g.contents, p.2 ≠ i := slotOf_none g.contents i hop
    constructor
    · rw [consistentS_iff]
      intro p hp
      simp only [applyOp, slotSet] at hp ⊢
      rcases List.mem_cons.mp hp with rfl | hp'
      · exact ⟨⟨col, c⟩, by rw [heapGet_heapSet, if_pos rfl], rfl⟩
      · have hp'' : p ∈ g.contents := (slotErase_sublist g.contents c).subset hp'
        obtain ⟨bd, hbd, hcoord⟩ := hcons p hp''
        refine ⟨bd, ?_, hcoord⟩
        rw [heapGet_heapSet, if_neg (fun hh => hne p hp'' hh.symm)]
        exact hbd
    · simp only [applyOp, slotSet, List.map_cons, List.nodup_cons]
      constructor
      · intro hmem
        obtain ⟨p, hp, hpi⟩ := List.mem_map.mp hmem
        exact hne p ((slotErase_sublist g.contents c).subset hp) hpi
      · exact ((slotErase_sublist g.contents c).map Prod.snd).nodup hnd
  | slideG d moves =>
    constructor
    · rw [consistentS_iff]
      intro p hp
      simp only [applyOp] at hp ⊢
      obtain ⟨q, hq, hfq⟩ := List.mem_map.mp hp
      obtain ⟨bd, hbd, hcoord⟩ := hcons q hq
      have hslot : slotOf g.contents q.2 = some q.1 := slotOf_nodup g.contents hnd q.1 q.2 hq
      have hmap := heapGet_slideMap g.contents d moves g.blocks q.2 bd q.1 hbd hslot
      by_cases hm : moves q.1
      · rw [if_pos hm] at hfq
        subst hfq
        rw [if_pos hm] at hmap
        exact ⟨{ bd with coord := stepToward d q.1 }, hmap, rfl⟩
      · rw [if_neg hm] at hfq
        subst hfq
        rw [if_neg hm] at hmap
        exact ⟨bd, hmap, hcoord⟩
    · simp only [applyOp]
      have hmap : (g.contents.map
          (fun p => if moves p.1 then (stepToward d p.1, p.2) else p)).map Prod.snd =
          g.contents.map Prod.snd := by
        rw [List.map_map]
        apply List.map_congr_left
        intro p _
        by_cases hm : moves p.1
        · simp [hm]
        · simp [hm]
      rw [hmap]
      exact hnd
  | destroyB i =>
    rcases hbd : heapGet g.blocks i with _ | bd
    · constructor
      · rw [consistentS_iff]
        intro p hp
        simp only [applyOp, hbd] at hp ⊢
        exact hcons p hp
      · simp only [applyOp, hbd]
        exact hnd
    · constructor
      · rw [consistentS_iff]
        intro p hp
        simp only [applyOp, hbd] at hp ⊢
        exact hcons p ((slotErase_sublist g.contents bd.coord).subset hp)
      · simp only [applyOp, hbd]
        exact ((slotErase_sublist g.contents bd.coord).map Prod.snd).nodup hnd

/-- Counterexample to C5 as stated: `drop` on a block that is still
registered elsewhere (`grid.contents[coord] = this` never clears the old
slot, `block.js` line 74) leaves the old slot referencing a block whose
own coordinate is the new slot's key. -/
theorem C5_counterexample :
    ConsistentS emptyG ∧ ¬ ConsistentS (applyOps emptyG doubleDrop) :=
  ⟨by decide, by decide⟩

/-- C5 (amended): for every sequence of drop/slide/destroy operations in
which each drop targets a block not currently registered in the store —
the lifecycle the spec prescribes — starting from a consistent store with
no aliased references, every slot holding a block reference has that
block's own recorded coordinate equal to the slot's key after the
sequence completes (and hence after every prefix). -/
theorem C5_consistency (g : GState) (ops : List GOp) (hg : GoodS g)
    (hlegal : legalSeqB g ops = true) : ConsistentS (applyOps g ops) := by
  induction ops generalizing g with
  | nil => exact hg.1
  | cons op ops ih =>
    simp only [legalSeqB, Bool.and_eq_true] at hlegal
    exact ih (applyOp g op) (good_step g op hg hlegal.1) hlegal.2

/-- Witness for the amended C5: a lifecycle-respecting sequence of two
drops, a whole-board slide, a destroy and a re-drop stays consistent. -/
theorem C5_consistency_witness :
    (GoodS emptyG ∧ legalSeqB emptyG legalOps = true) ∧
    ConsistentS (applyOps emptyG legalOps) :=
  ⟨⟨⟨by decide, by decide⟩, by decide⟩,
   C5_consistency emptyG legalOps ⟨by decide, by decide⟩ (by decide)⟩

/-- The checkpoint scan returns a 1-based index within the table. -/
theorem scan_le_length (cps : List Nat) (cur : Nat) :
    ∀ m, scanCheckpoints cps cur = some m → 1 ≤ m ∧ m ≤ cps.length := by
  induction cps with
  | nil => intro m h; simp [scanCheckpoints] at h
  | cons cp rest ih =>
    intro m h
    simp only [scanCheckpoints] at h
    rcases hr : scanCheckpoints rest cur with _ | j
    · rw [hr] at h
      by_cases hc : cp ≤ cur
      · simp only [if_pos hc, Option.some.injEq] at h
        simp [← h]
      · simp [if_neg hc] at h
    · rw [hr] at h
      simp only [Option.some.injEq] at h
      have hj := ih j hr
      simp only [List.length_cons]
      omega

/-- The scan is monotone in the score: a satisfied checkpoint stays
satisfied, and the returned level can only grow. -/
theorem scan_mono (cps : List Nat) (cur cur' : Nat) (hle : cur ≤ cur') :
    ∀ m, scanCheckpoints cps cur = some m →
      ∃ m', m ≤ m' ∧ scanCheckpoints cps cur' = some m' := by
  induction cps with
  | nil => intro m h; simp [scanCheckpoints] at h
  | cons cp rest ih =>
    intro m h
    simp only [scanCheckpoints] at h ⊢
    rcases hr : scanCheckpoints rest cur with _ | j
    · rw [hr] at h
      by_cases hc : cp ≤ cur
      · simp only [if_pos hc, Option.some.injEq] at h
        rcases hr' : scanCheckpoints rest cur' with _ | j'
        · have hc' : cp ≤ cur' := le_trans hc hle
          exact ⟨1, by omega, by rw [if_pos hc']⟩
        · exact ⟨j' + 1, by omega, rfl⟩
      · simp [if_neg hc] at h
    · rw [hr] at h
      simp only [Option.some.injEq] at h
      obtain ⟨j', hj', hscan'⟩ := ih j hr
      rw [hscan']
      exact ⟨j' + 1, by omega, rfl⟩

/-- With positive checkpoints, a zero score satisfies none. -/
theorem scan_zero_none : ∀ (cps : List Nat), (∀ c ∈ cps, 0 < c) →
    scanCheckpoints cps 0 = none := by
  intro cps
  induction cps with
  | nil => intro _; rfl
  | cons cp rest ih =>
    intro hpos
    have h1 : scanCheckpoints rest 0 = none :=
      ih fun c hc => hpos c (List.mem_cons_of_mem _ hc)
    have h2 : ¬ cp ≤ 0 := by
      have := hpos cp (List.mem_cons_self _ _)
      omega
    simp [scanCheckpoints, h1, h2]

/-- Characterisation of one `update` step: the score grows by
`clearCount ^ exponent` and the level becomes the recomputed level
exactly when it strictly increased. -/
theorem update_char (cfg : Config) (s : ScoreState) (n : Nat) :
    (update cfg s n).1.current = s.current + n ^ cfg.points.getD s.level 0 ∧
    (update cfg s n).1.level =
      (if s.level < calcLevel cfg (s.current + n ^ cfg.points.getD s.level 0) s.level
       then calcLevel cfg (s.current + n ^ cfg.points.getD s.level 0) s.level
       else s.level) := by
  by_cases h : s.level < calcLevel cfg (s.current + n ^ cfg.points.getD s.level 0) s.level
  · simp only [update]
    rw [if_pos h, if_pos h]
    exact ⟨rfl, rfl⟩
  · simp only [update]
    rw [if_neg h, if_neg h]
    exact ⟨rfl, rfl⟩

/-- The score-machine invariant survives one `update` step. -/
theorem scoreInv_update (cfg : Config) (s : ScoreState) (n : Nat)
    (hinv : ScoreInv cfg s) : ScoreInv cfg (update cfg s n).1 := by
  obtain ⟨hsc, hlen⟩ := hinv
  obtain ⟨hcur, hlvl⟩ := update_char cfg s n
  set cur' := s.current + n ^ cfg.points.getD s.level 0 with hcur'def
  have hle : s.current ≤ cur' := Nat.le_add_right _ _
  rcases hsc' : scanCheckpoints cfg.checkpoints cur' with _ | m
  · have hlvl0 : s.level = 0 := by
      rcases hsc with ⟨hnone, h0⟩ | hsome
      · exact h0
      · obtain ⟨m', _, hm'⟩ := scan_mono cfg.checkpoints s.current cur' hle _ hsome
        rw [hsc'] at hm'
        exact Option.noConfusion hm'
    have hcalc : calcLevel cfg cur' s.level = s.level := by
      unfold calcLevel
      rw [hsc']
      rfl
    rw [hcalc] at hlvl
    simp only [lt_self_iff_false, if_false] at hlvl
    constructor
    · left
      rw [hcur, hlvl]
      exact ⟨hsc', hlvl0⟩
    · rw [hlvl]
      exact hlen
  · have hcalc : calcLevel cfg cur' s.level = m := by
      unfold calcLevel
      rw [hsc']
      rfl
    rw [hcalc] at hlvl
    have hm_ge : s.level ≤ m := by
      rcases hsc with ⟨hnone, h0⟩ | hsome
      · have := (scan_le_length cfg.checkpoints cur' m hsc').1
        omega
      · obtain ⟨m', hmm', hm'⟩ := scan_mono cfg.checkpoints s.current cur' hle _ hsome
        rw [hsc'] at hm'
        injection hm' with hm'
        omega
    by_cases hlt : s.level < m
    · rw [if_pos hlt] at hlvl
      constructor
      · right
        rw [hcur, hlvl]
        exact hsc'
      · rw [hlvl]
        exact (scan_le_length cfg.checkpoints cur' m hsc').2
    · have hm_eq : m = s.level := by omega
      rw [if_neg hlt] at hlvl
      constructor
      · right
        rw [hcur, hlvl, hsc', hm_eq]
      · rw [hlvl]
        exact hlen

/-- The invariant holds at the initial state. -/
theorem scoreInv_init (cfg : Config) (hcp : ∀ c ∈ cfg.checkpoints, 0 < c) :
    ScoreInv cfg initScore := by
  constructor
  · left
    exact ⟨scan_zero_none cfg.checkpoints hcp, rfl⟩
  · simp [initScore]

/-- The invariant holds at every state reachable through `update`. -/
theorem scoreInv_run (cfg : Config) (hcp : ∀ c ∈ cfg.checkpoints, 0 < c)
    (ns : List Nat) : ScoreInv cfg (runUpdates cfg initScore ns) := by
  suffices h : ∀ (s : ScoreState), ScoreInv cfg s →
      ScoreInv cfg (runUpdates cfg s ns) from h initScore (scoreInv_init cfg hcp)
  induction ns with
  | nil => intro s hs; exact hs
  | cons n ns ih =>
    intro s hs
    exact ih (update cfg s n).1 (scoreInv_update cfg s n hs)

/-- `update 0` awards no points and keeps the level, provided the
exponent table covers every reachable level with a positive exponent. -/
theorem update_zero (cfg : Config) (s : ScoreState)
    (hpts : ∀ e ∈ cfg.points, 0 < e) (hlen : cfg.checkpoints.length < cfg.points.length)
    (hinv : ScoreInv cfg s) :
    (update cfg s 0).1.current = s.current ∧ (update cfg s 0).1.level = s.level ∧
    ScoreInv cfg (update cfg s 0).1 := by
  have hlt : s.level < cfg.points.length := lt_of_le_of_lt hinv.2 hlen
  have hexp : 0 < cfg.points.getD s.level 0 := by
    rw [List.getD_eq_getElem cfg.points 0 hlt]
    exact hpts _ (List.getElem_mem hlt)
  have hzero : (0 : Nat) ^ cfg.points.getD s.level 0 = 0 :=
    Nat.zero_pow hexp
  obtain ⟨hcur, hlvl⟩ := update_char cfg s 0
  rw [hzero] at hcur hlvl
  have hcalc : calcLevel cfg (s.current + 0) s.level = s.level := by
    rcases hinv.1 with ⟨hnone, h0⟩ | hsome
    · unfold calcLevel
      rw [Nat.add_zero, hnone]
      rfl
    · unfold calcLevel
      rw [Nat.add_zero, hsome]
      rfl
  rw [hcalc] at hlvl
  simp only [lt_self_iff_false, if_false] at hlvl
  refine ⟨by rw [hcur, Nat.add_zero], hlvl, scoreInv_update cfg s 0 hinv⟩

/-- Repeated `update 0` calls never change the level. -/
theorem run_zero (cfg : Config)
    (hpts : ∀ e ∈ cfg.points, 0 < e) (hlen : cfg.checkpoints.length < cfg.points.length) :
    ∀ (k : Nat) (s : ScoreState), ScoreInv cfg s →
      (runUpdates cfg s (List.replicate k 0)).level = s.level := by
  intro k
  induction k with
  | zero => intro s _; rfl
  | succ k ih =>
    intro s hs
    obtain ⟨hc, hl, hinv'⟩ := update_zero cfg s hpts hlen hs
    show (runUpdates cfg (update cfg s 0).1 (List.replicate k 0)).level = s.level
    rw [ih _ hinv', hl]

/-- C7: the level is monotonically non-decreasing — after any history of
`update` calls from the initial state, `calcLevel` never returns a value
below the current level, and any number of further `update 0` calls
leaves the level unchanged (for a configuration with positive ascending
checkpoints and positive per-level exponents covering all levels). -/
theorem C7_level_monotone (cfg : Config)
    (hcp : ∀ c ∈ cfg.checkpoints, 0 < c)
    (hpts : ∀ e ∈ cfg.points, 0 < e)
    (hlen : cfg.checkpoints.length < cfg.points.length)
    (ns : List Nat) :
    (runUpdates cfg initScore ns).level ≤
      calcLevel cfg (runUpdates cfg initScore ns).current
        (runUpdates cfg initScore ns).level ∧
    ∀ k, (runUpdates cfg (runUpdates cfg initScore ns)
        (List.replicate k 0)).level = (runUpdates cfg initScore ns).level := by
  have hinv := scoreInv_run cfg hcp ns
  constructor
  · rcases hinv.1 with ⟨hnone, _⟩ | hsome
    · unfold calcLevel
      rw [hnone]
      exact le_refl _
    · unfold calcLevel
      rw [hsome]
      exact le_refl _
  · intro k
    exact run_zero cfg hpts hlen k _ hinv

/-- Witness for C7 at the scenario configuration and the history
`[50, 60]`. -/
theorem C7_level_monotone_witness :
    ((∀ c ∈ cfgScenario.checkpoints, 0 < c) ∧ (∀ e ∈ cfgScenario.points, 0 < e) ∧
      cfgScenario.checkpoints.length < cfgScenario.points.length) ∧
    ((runUpdates cfgScenario initScore [50, 60]).level ≤
      calcLevel cfgScenario (runUpdates cfgScenario initScore [50, 60]).current
        (runUpdates cfgScenario initScore [50, 60]).level ∧
    ∀ k, (runUpdates cfgScenario (runUpdates cfgScenario initScore [50, 60])
        (List.replicate k 0)).level =
      (runUpdates cfgScenario initScore [50, 60]).level) :=
  ⟨⟨by decide, by decide, by decide⟩,
   C7_level_monotone cfgScenario (by decide) (by decide) (by decide) [50, 60]⟩

/-- C6: `update(clearCount)` adds exactly
`floor(clearCount ^ points-exponent(level))` (exact for natural-number
exponents) to the cumulative score, refreshes the displayed text with the
pre-update level, recomputes the level from the new score and transitions
— emitting the level-transition side effects exactly once — only when the
recomputed level exceeds the current one; in particular, with checkpoints
`[100, 300, 600]` and exponent 1 at level 0, `update 50` from score 0
gives score 50 and level 0 with no transition, and a following
`update 60` gives score 110, level 1 and exactly one emission of the
transition events. -/
theorem C6_update_score (cfg : Config) (s : ScoreState) (n : Nat)
    (hlev : s.level < cfg.points.length) :
    ((update cfg s n).1.current = s.current + n ^ cfg.points.getD s.level 0 ∧
     (update cfg s n).1.boardText =
       "Level: " ++ toString (s.level + 1) ++ "\nScore: " ++
         toString (s.current + n ^ cfg.points.getD s.level 0) ∧
     ((update cfg s n).2 ≠ [] ↔
       s.level < calcLevel cfg (s.current + n ^ cfg.points.getD s.level 0) s.level) ∧
     (update cfg s n).1.level =
       (if s.level < calcLevel cfg (s.current + n ^ cfg.points.getD s.level 0) s.level
        then calcLevel cfg (s.current + n ^ cfg.points.getD s.level 0) s.level
        else s.level) ∧
     ((update cfg s n).2 = [] ∨
       (update cfg s n).2 = newLevelEvents cfg (update cfg s n).1.level)) ∧
    ((update cfgScenario initScore 50).1.current = 50 ∧
     (update cfgScenario initScore 50).1.level = 0 ∧
     (update cfgScenario initScore 50).2 = [] ∧
     (update cfgScenario (update cfgScenario initScore 50).1 60).1.current = 110 ∧
     (update cfgScenario (update cfgScenario initScore 50).1 60).1.level = 1 ∧
     (update cfgScenario (update cfgScenario initScore 50).1 60).2 =
       newLevelEvents cfgScenario 1) := by
  constructor
  · by_cases h : s.level < calcLevel cfg (s.current + n ^ cfg.points.getD s.level 0) s.level
    · simp only [update]
      rw [if_pos h, if_pos h]
      refine ⟨rfl, rfl, ?_, rfl, Or.inr rfl⟩
      simp only [newLevelEvents]
      exact ⟨fun _ => h, fun _ => by simp⟩
    · simp only [update]
      rw [if_neg h, if_neg h]
      refine ⟨rfl, rfl, ?_, rfl, Or.inl rfl⟩
      exact ⟨fun hne => absurd rfl hne, fun hlt => absurd hlt h⟩
  · exact ⟨rfl, rfl, rfl, rfl, rfl, rfl⟩

/-- Witness for C6 (its scenario half, with the hypothesis discharged at
the scenario configuration). -/
theorem C6_update_score_witness :
    (update cfgScenario initScore 50).1.current = 50 ∧
    (update cfgScenario initScore 50).1.level = 0 ∧
    (update cfgScenario initScore 50).2 = [] ∧
    (update cfgScenario (update cfgScenario initScore 50).1 60).1.current = 110 ∧
    (update cfgScenario (update cfgScenario initScore 50).1 60).1.level = 1 ∧
    (update cfgScenario (update cfgScenario initScore 50).1 60).2 =
      newLevelEvents cfgScenario 1 :=
  (C6_update_score cfgScenario initScore 50 (by decide)).2

/-- C8: whenever `update` emits level-transition side effects at all, it
emits exactly this ordered trace: notify the generator of the new level,
switch the background music track, switch the background colour to the
new palette's first colour, mark the centerpiece breakable, clear the
whole grid, reset the protected middle region, then redraw, recentre and
re-mark the centerpiece unbreakable. -/
theorem C8_transition_order (cfg : Config) (s : ScoreState) (n : Nat) :
    (update cfg s n).2 = [] ∨
    (update cfg s n).2 =
      [Event.setLevel (update cfg s n).1.level,
       Event.playMusic ("background" ++ toString ((update cfg s n).1.level + 1)),
       Event.newBackgroundColor
         ((cfg.available.getD ((update cfg s n).1.level) []).getD 0 0),
       Event.markCenterBreakable,
       Event.clearAll,
       Event.resetMiddle,
       Event.redrawCenter,
       Event.centerToCenter,
       Event.markCenterUnbreakable] := by
  by_cases h : s.level < calcLevel cfg (s.current + n ^ cfg.points.getD s.level 0) s.level
  · right
    simp only [update]
    rw [if_pos h]
    rfl
  · left
    simp only [update]
    rw [if_neg h]

/-- Witness for C1: a block away from any square triggers nothing and
the grid is untouched. -/
theorem C1_square_gate_witness :
    clear (sq22 redColor) (⟨⟨5, 5⟩, redColor⟩ : Block) = (sq22 redColor, []) :=
  (C1_square_gate (sq22 redColor) ⟨⟨5, 5⟩, redColor⟩).2 (by decide)
